import Mathlib

/-!
Verification of the OlympicFilter tool
(`src/whitebox_tools/src/tools/image_analysis/olympic_filter.rs`).

The filter's `f64` samples are modelled as exact rationals (`ℚ`); the
`f64::INFINITY` / `f64::NEG_INFINITY` initial values of the running
minimum / maximum accumulators are modelled as `⊤ : WithTop ℚ` and
`⊥ : WithBot ℚ`, which order against finite samples exactly as the IEEE
infinities order against finite doubles.
-/

namespace OlympicFilter

/-- Modelled from the spec: the raster `Grid` collaborator (the `raster`
crate is not under `src/`). It provides `rows`, `columns`, the `nodata`
sentinel, and in-range sample values. -/
structure Grid where
  rows : ℕ
  columns : ℕ
  nodata : ℚ
  val : ℕ → ℕ → ℚ

/-- Modelled from the spec: `get(row, col) -> f64` returns `no_data` for
out-of-range coordinates. -/
def Grid.get (g : Grid) (r c : ℤ) : ℚ :=
  if 0 ≤ r ∧ r < (g.rows : ℤ) ∧ 0 ≤ c ∧ c < (g.columns : ℤ) then
    g.val r.toNat c.toNat
  else g.nodata

/-- One vertical-strip aggregate: the entries pushed in lockstep onto the
four `VecDeque`s `filter_min_vals`, `filter_max_vals`, `totals`, `n_vals`
of the source. `min_val` is a `WithTop ℚ` because the source initializes
it to `f64::INFINITY`; `max_val` is a `WithBot ℚ` (initialized to
`f64::NEG_INFINITY`). -/
@[ext] structure Agg where
  min_val : WithTop ℚ
  max_val : WithBot ℚ
  sum : ℚ
  n : ℕ
deriving DecidableEq

/-- Accumulator start state: `min_val = f64::INFINITY`,
`max_val = f64::NEG_INFINITY`, `sum = 0.0`, `n = 0`. -/
def aggInit : Agg := ⟨⊤, ⊥, 0, 0⟩

/-- One step of the source's accumulation loops:
`if z_n != nodata { if z_n < min_val { .. } if z_n > max_val { .. } sum += z_n; n += 1; }`. -/
def aggUpdate (nodata : ℚ) (a : Agg) (z_n : ℚ) : Agg :=
  if z_n ≠ nodata then
    { min_val := if (z_n : WithTop ℚ) < a.min_val then (z_n : WithTop ℚ) else a.min_val
      max_val := if a.max_val < (z_n : WithBot ℚ) then (z_n : WithBot ℚ) else a.max_val
      sum := a.sum + z_n
      n := a.n + 1 }
  else a

/-- The row coordinates `start_row..end_row+1` scanned by a strip, where
`start_row = row - midpoint_y` and `end_row = row + midpoint_y`. -/
def stripRows (row : ℤ) (my : ℕ) : List ℤ :=
  (List.range (2 * my + 1)).map (fun (i : ℕ) => row - my + (i : ℤ))

/-- Full vertical rescan of the single column `colX`
(the `for row2 in start_row..end_row+1` loop of the source). -/
def computeStrip (g : Grid) (row : ℤ) (my : ℕ) (colX : ℤ) : Agg :=
  (stripRows row my).foldl (fun a r2 => aggUpdate g.nodata a (g.get r2 colX)) aggInit

/-- The column coordinates `col - midpoint_x ..= col + midpoint_x` of the
window centered at `col`. -/
def windowCols (col : ℤ) (mx : ℕ) : List ℤ :=
  (List.range (2 * mx + 1)).map (fun (i : ℕ) => col - mx + (i : ℤ))

/-- Deque state when the output at column `col` is computed. The four
`VecDeque`s of the source advance in lockstep and are modelled as one
deque of `Agg`: the initial full fill at column 0 (`col2` from
`col - midpoint_x` to `col + midpoint_x`), then for each later column a
`pop_front` plus one new strip at `col + midpoint_x`. -/
def dequeAt (g : Grid) (row : ℤ) (mx my : ℕ) : ℕ → List Agg
  | 0 => (windowCols 0 mx).map (computeStrip g row my)
  | col + 1 =>
      (dequeAt g row mx my col).tail ++ [computeStrip g row my ((col : ℤ) + 1 + mx)]

/-- Body of the combining loop `for i in 0..filter_size_x`:
`if filter_min_vals[i] < min_val { .. } if filter_max_vals[i] > max_val { .. }
sum += totals[i]; n += n_vals[i];`. -/
def mergeStep (acc a : Agg) : Agg :=
  { min_val := if a.min_val < acc.min_val then a.min_val else acc.min_val
    max_val := if acc.max_val < a.max_val then a.max_val else acc.max_val
    sum := acc.sum + a.sum
    n := acc.n + a.n }

/-- The combined window aggregate: the `for i in 0..filter_size_x` reduction
over the strips, starting from `INFINITY / NEG_INFINITY / 0.0 / 0`. -/
def combine (deque : List Agg) : Agg := deque.foldl mergeStep aggInit

/-- Output at one cell (the body of the `for col in 0..columns` loop after
the deque update): `data` is pre-filled with `nodata`; when the center
`z = input[(row, col)]` is not `nodata`, the combined aggregate decides
between the trimmed mean `(sum - max_val - min_val) / (n - 2)` (for `n > 2`)
and the plain mean `sum / n`. In the `n > 2` branch `min_val` and `max_val`
are finite (proved below), so the `untop' 0` / `unbot' 0` defaults are
never the value actually used. -/
def outputCell (g : Grid) (mx my : ℕ) (row : ℤ) (col : ℕ) : ℚ :=
  if g.get row col ≠ g.nodata then
    let a := combine (dequeAt g row mx my col)
    if 2 < a.n then
      (a.sum - a.max_val.unbot' 0 - a.min_val.untop' 0) / ((a.n - 2 : ℕ) : ℚ)
    else
      a.sum / (a.n : ℚ)
  else g.nodata

/-- Normalization of a user-supplied filter width:
`if filter_size < 3 { filter_size = 3 }` followed by the odd-adjustment
(the source tests `(w as f64 / 2.0).floor() == w as f64 / 2.0`, i.e.
whether `w` is even, and then does `w += 1`). -/
def normalizeWidth (w : ℕ) : ℕ :=
  let w1 := if w < 3 then 3 else w
  if w1 % 2 = 0 then w1 + 1 else w1

/-- One iteration of the scheduler's `while ending_row < rows` loop:
`starting_row = id * row_block_size; ending_row = starting_row +
row_block_size; if ending_row > rows { ending_row = rows }`. The loop is
modelled with fuel `rows + 1`, which is sufficient whenever
`row_block_size ≥ 1`; when `rows < num_procs` the block size is `0` and
the source loop never terminates (every spawned block is empty). -/
def schedLoop (rows bs : ℕ) : ℕ → ℕ → ℕ → List (ℕ × ℕ)
  | 0, _, _ => []
  | fuel + 1, id, ending_row =>
    if ending_row < rows then
      (id * bs, min (id * bs + bs) rows) ::
        schedLoop rows bs fuel (id + 1) (min (id * bs + bs) rows)
    else []

/-- The row blocks `[starting_row, ending_row)` dispatched by the scheduler,
with `row_block_size = rows / num_procs`. -/
def rowBlocks (rows num_procs : ℕ) : List (ℕ × ℕ) :=
  schedLoop rows (rows / num_procs) (rows + 1) 0 0

/-- The row indices covered by a list of blocks, in block order. -/
def flattenBlocks (blocks : List (ℕ × ℕ)) : List ℕ :=
  blocks.flatMap (fun b => List.range' b.1 (b.2 - b.1))

/-- All samples of the `width_x × width_y` window centered at
`(row, col)`, column by column. -/
def windowSamples (g : Grid) (row : ℤ) (mx my : ℕ) (col : ℤ) : List ℚ :=
  (windowCols col mx).flatMap (fun c2 => (stripRows row my).map (fun r2 => g.get r2 c2))

/-- Folding the source's accumulation step over a list of samples. -/
def aggFold (nodata : ℚ) (l : List ℚ) : Agg := l.foldl (aggUpdate nodata) aggInit

/-- Modelled from the spec: the brute-force `O(width_x · width_y)`
neighborhood scan — a single accumulation pass over every sample of the
exact window centered at `(row, col)`. -/
def bruteForceAggregate (g : Grid) (row : ℤ) (mx my : ℕ) (col : ℤ) : Agg :=
  aggFold g.nodata (windowSamples g row mx my col)

/-- The valid (non-`nodata`) samples of the window. -/
def validSamples (g : Grid) (row : ℤ) (mx my : ℕ) (col : ℤ) : List ℚ :=
  (windowSamples g row mx my col).filter (fun z => z != g.nodata)

/-- Minimum of a list of samples, `⊤` (i.e. `+∞`) for the empty list. -/
def specMin (l : List ℚ) : WithTop ℚ := l.foldr (fun z m => min (z : WithTop ℚ) m) ⊤

/-- Maximum of a list of samples, `⊥` (i.e. `-∞`) for the empty list. -/
def specMax (l : List ℚ) : WithBot ℚ := l.foldr (fun z m => max (z : WithBot ℚ) m) ⊥

/-! ### The combining step is a commutative-monoid operation on aggregates -/

lemma ite_lt_eq_min {α : Type} [LinearOrder α] (x y : α) :
    (if y < x then y else x) = min x y := by
  rcases le_or_lt x y with h | h
  · rw [if_neg (not_lt.mpr h), min_eq_left h]
  · rw [if_pos h, min_eq_right h.le]

lemma ite_lt_eq_max {α : Type} [LinearOrder α] (x y : α) :
    (if x < y then y else x) = max x y := by
  rcases le_or_lt y x with h | h
  · rw [if_neg (not_lt.mpr h), max_eq_left h]
  · rw [if_pos h, max_eq_right h.le]

lemma mergeStep_eq (acc a : Agg) :
    mergeStep acc a =
      ⟨min acc.min_val a.min_val, max acc.max_val a.max_val,
        acc.sum + a.sum, acc.n + a.n⟩ := by
  unfold mergeStep
  ext <;> simp [ite_lt_eq_min, ite_lt_eq_max]

lemma mergeStep_init_left (a : Agg) : mergeStep aggInit a = a := by
  rw [mergeStep_eq]
  ext <;> simp [aggInit, min_eq_right le_top, max_eq_right bot_le]

lemma mergeStep_init_right (a : Agg) : mergeStep a aggInit = a := by
  rw [mergeStep_eq]
  ext <;> simp [aggInit, min_eq_left le_top, max_eq_left bot_le]

lemma mergeStep_assoc (a b c : Agg) :
    mergeStep (mergeStep a b) c = mergeStep a (mergeStep b c) := by
  simp only [mergeStep_eq]
  ext <;> simp [min_assoc, max_assoc, add_assoc]

lemma foldl_mergeStep_from (l : List Agg) :
    ∀ a : Agg, l.foldl mergeStep a = mergeStep a (combine l) := by
  induction l with
  | nil => intro a; simp [combine, List.foldl_nil, mergeStep_init_right]
  | cons x l ih =>
      intro a
      have hx : combine (x :: l) = mergeStep x (combine l) := by
        simp only [combine, List.foldl_cons]
        rw [show List.foldl mergeStep (mergeStep aggInit x) l
              = List.foldl mergeStep x l from by rw [mergeStep_init_left]]
        exact ih x
      rw [List.foldl_cons, ih (mergeStep a x), hx, mergeStep_assoc]

lemma combine_cons (x : Agg) (l : List Agg) :
    combine (x :: l) = mergeStep x (combine l) := by
  simp only [combine, List.foldl_cons]
  rw [show List.foldl mergeStep (mergeStep aggInit x) l
        = List.foldl mergeStep x l from by rw [mergeStep_init_left]]
  exact foldl_mergeStep_from l x

/-! ### Accumulation over samples is a fold of one-sample aggregates -/

lemma aggUpdate_as_merge (nodata : ℚ) (a : Agg) (z : ℚ) :
    aggUpdate nodata a z = mergeStep a (aggUpdate nodata aggInit z) := by
  by_cases hz : z ≠ nodata
  · simp only [aggUpdate, if_pos hz]
    rw [mergeStep_eq]
    ext <;>
      simp [aggInit, WithTop.coe_lt_top, WithBot.bot_lt_coe,
        ite_lt_eq_min, ite_lt_eq_max]
  · simp [aggUpdate, hz, mergeStep_init_right]

lemma foldl_aggUpdate_from (nodata : ℚ) (l : List ℚ) :
    ∀ a : Agg, l.foldl (aggUpdate nodata) a = mergeStep a (aggFold nodata l) := by
  induction l with
  | nil => intro a; simp [aggFold, mergeStep_init_right]
  | cons z l ih =>
      intro a
      have hz : aggFold nodata (z :: l) =
          mergeStep (aggUpdate nodata aggInit z) (aggFold nodata l) := by
        simp only [aggFold, List.foldl_cons]
        exact ih (aggUpdate nodata aggInit z)
      rw [List.foldl_cons, ih (aggUpdate nodata a z), hz,
        aggUpdate_as_merge nodata a z, mergeStep_assoc]

lemma aggFold_cons (nodata z : ℚ) (l : List ℚ) :
    aggFold nodata (z :: l) =
      mergeStep (aggUpdate nodata aggInit z) (aggFold nodata l) := by
  simp only [aggFold, List.foldl_cons]
  exact foldl_aggUpdate_from nodata l (aggUpdate nodata aggInit z)

lemma aggFold_append (nodata : ℚ) (xs ys : List ℚ) :
    aggFold nodata (xs ++ ys) = mergeStep (aggFold nodata xs) (aggFold nodata ys) := by
  simp only [aggFold, List.foldl_append]
  exact foldl_aggUpdate_from nodata ys (List.foldl (aggUpdate nodata) aggInit xs)

/-! ### The deque of strips tracks the window columns -/

lemma computeStrip_eq_aggFold (g : Grid) (row : ℤ) (my : ℕ) (colX : ℤ) :
    computeStrip g row my colX =
      aggFold g.nodata ((stripRows row my).map (fun r2 => g.get r2 colX)) := by
  simp [computeStrip, aggFold, List.foldl_map]

lemma combine_strips (g : Grid) (row : ℤ) (my : ℕ) (cols : List ℤ) :
    combine (cols.map (computeStrip g row my)) =
      aggFold g.nodata
        (cols.flatMap (fun c2 => (stripRows row my).map (fun r2 => g.get r2 c2))) := by
  induction cols with
  | nil => simp [combine, aggFold]
  | cons c cs ih =>
      rw [List.map_cons, combine_cons, ih, List.flatMap_cons, aggFold_append,
        computeStrip_eq_aggFold]

lemma windowCols_succ (c : ℤ) (mx : ℕ) :
    windowCols (c + 1) mx = (windowCols c mx).tail ++ [c + 1 + mx] := by
  unfold windowCols
  conv_lhs => rw [List.range_succ]
  conv_rhs => rw [List.range_succ_eq_map]
  simp only [List.map_cons, List.tail_cons, List.map_append, List.map_map,
    List.map_nil]
  congr 1
  · congr 1
    funext i
    simp only [Function.comp_apply, Nat.succ_eq_add_one]
    push_cast
    ring
  · have h2 : c + 1 - (mx : ℤ) + ((2 * mx : ℕ) : ℤ) = c + 1 + mx := by
      push_cast
      ring
    rw [h2]

lemma dequeAt_eq (g : Grid) (row : ℤ) (mx my : ℕ) (col : ℕ) :
    dequeAt g row mx my col = (windowCols col mx).map (computeStrip g row my) := by
  induction col with
  | zero => simp [dequeAt]
  | succ c ih =>
      rw [dequeAt, ih, show ((c + 1 : ℕ) : ℤ) = (c : ℤ) + 1 from by push_cast; ring,
        windowCols_succ, List.map_append, List.map_tail, List.map_cons, List.map_nil]

/-- The incremental sliding-window aggregate coincides with the one-pass
accumulation over all samples of the exact window. -/
lemma combine_dequeAt (g : Grid) (row : ℤ) (mx my : ℕ) (col : ℕ) :
    combine (dequeAt g row mx my col) = bruteForceAggregate g row mx my col := by
  rw [dequeAt_eq, combine_strips]
  rfl

/-! ### The aggregate in terms of the valid samples -/

lemma aggFold_characterization (nodata : ℚ) (l : List ℚ) :
    aggFold nodata l =
      ⟨specMin (l.filter (fun z => z != nodata)),
        specMax (l.filter (fun z => z != nodata)),
        (l.filter (fun z => z != nodata)).sum,
        (l.filter (fun z => z != nodata)).length⟩ := by
  induction l with
  | nil => simp [aggFold, specMin, specMax, aggInit]
  | cons z l ih =>
      rw [aggFold_cons, ih]
      by_cases hz : z = nodata
      · simp [List.filter_cons, hz, aggUpdate, mergeStep_init_left]
      · have hu : aggUpdate nodata aggInit z =
            ⟨(z : WithTop ℚ), (z : WithBot ℚ), z, 1⟩ := by
          simp [aggUpdate, hz, aggInit, WithTop.coe_lt_top, WithBot.bot_lt_coe]
        rw [hu, mergeStep_eq]
        simp only [List.filter_cons, show (z != nodata) = true from by simpa using hz,
          if_pos]
        ext
        · rfl
        · rfl
        · simp [specMin, specMax]
        · simp [specMin, specMax, Nat.add_comm]

lemma combine_dequeAt_spec (g : Grid) (row : ℤ) (mx my : ℕ) (col : ℕ) :
    combine (dequeAt g row mx my col) =
      ⟨specMin (validSamples g row mx my col),
        specMax (validSamples g row mx my col),
        (validSamples g row mx my col).sum,
        (validSamples g row mx my col).length⟩ := by
  rw [combine_dequeAt]
  exact aggFold_characterization g.nodata (windowSamples g row mx my col)

lemma specMin_ne_top (l : List ℚ) (hl : l ≠ []) : specMin l ≠ ⊤ := by
  cases l with
  | nil => exact absurd rfl hl
  | cons z v =>
      exact ((min_le_left (z : WithTop ℚ) (specMin v)).trans_lt
        (WithTop.coe_lt_top z)).ne

lemma specMax_ne_bot (l : List ℚ) (hl : l ≠ []) : specMax l ≠ ⊥ := by
  cases l with
  | nil => exact absurd rfl hl
  | cons z v =>
      exact ((WithBot.bot_lt_coe z).trans_le
        (le_max_left (z : WithBot ℚ) (specMax v))).ne'

/-! ### A valid center makes the window count positive -/

lemma self_mem_windowCols (c : ℤ) (mx : ℕ) : c ∈ windowCols c mx := by
  unfold windowCols
  rw [List.mem_map]
  exact ⟨mx, by rw [List.mem_range]; omega, by ring⟩

lemma self_mem_stripRows (row : ℤ) (my : ℕ) : row ∈ stripRows row my := by
  unfold stripRows
  rw [List.mem_map]
  exact ⟨my, by rw [List.mem_range]; omega, by ring⟩

lemma center_mem_windowSamples (g : Grid) (row c : ℤ) (mx my : ℕ) :
    g.get row c ∈ windowSamples g row mx my c := by
  unfold windowSamples
  rw [List.mem_flatMap]
  exact ⟨c, self_mem_windowCols c mx,
    List.mem_map.mpr ⟨row, self_mem_stripRows row my, rfl⟩⟩

lemma center_mem_validSamples (g : Grid) (row c : ℤ) (mx my : ℕ)
    (hz : g.get row c ≠ g.nodata) :
    g.get row c ∈ validSamples g row mx my c := by
  unfold validSamples
  rw [List.mem_filter]
  exact ⟨center_mem_windowSamples g row c mx my, by simpa using hz⟩

lemma center_count_pos (g : Grid) (row : ℤ) (mx my : ℕ) (col : ℕ)
    (hz : g.get row col ≠ g.nodata) :
    1 ≤ (combine (dequeAt g row mx my col)).n := by
  rw [combine_dequeAt_spec]
  exact List.length_pos.mpr
    (List.ne_nil_of_mem (center_mem_validSamples g row col mx my hz))

/-! ### Closed form of the scheduler loop (when the block size is positive) -/

/-- Number of iterations of the scheduler loop: `⌈rows / bs⌉`. -/
def numBlocks (rows bs : ℕ) : ℕ := (rows + bs - 1) / bs

lemma lt_numBlocks_iff (rows bs : ℕ) (hbs : 1 ≤ bs) (id : ℕ) :
    id < numBlocks rows bs ↔ id * bs < rows := by
  unfold numBlocks
  rw [Nat.lt_iff_add_one_le, Nat.le_div_iff_mul_le (by omega : 0 < bs),
    Nat.succ_mul]
  generalize id * bs = m
  omega

lemma schedLoop_eq (rows bs : ℕ) (hbs : 1 ≤ bs) :
    ∀ fuel id e, e = min (id * bs) rows → rows - e < fuel →
      schedLoop rows bs fuel id e =
        (List.range (numBlocks rows bs - id)).map
          (fun j => ((id + j) * bs, min ((id + j + 1) * bs) rows)) := by
  intro fuel
  induction fuel with
  | zero => intro id e he hf; omega
  | succ fuel ih =>
      intro id e he hf
      by_cases hlt : e < rows
      · have hid : id * bs < rows := by omega
        have hK : id < numBlocks rows bs := (lt_numBlocks_iff rows bs hbs id).mpr hid
        have he2 : e = id * bs := by omega
        have hnext : min (id * bs + bs) rows = min ((id + 1) * bs) rows := by
          rw [Nat.succ_mul]
        have hstep : schedLoop rows bs (fuel + 1) id e =
            (id * bs, min (id * bs + bs) rows) ::
              schedLoop rows bs fuel (id + 1) (min (id * bs + bs) rows) := by
          rw [schedLoop, if_pos hlt]
        rw [hstep, ih (id + 1) (min (id * bs + bs) rows) (by rw [hnext]) (by omega),
          show numBlocks rows bs - id = (numBlocks rows bs - (id + 1)) + 1 from by omega,
          List.range_succ_eq_map, List.map_cons, List.map_map]
        congr 1
        · simp only [Nat.add_zero, hnext]
        · have hfun : (fun j => ((id + 1 + j) * bs, min ((id + 1 + j + 1) * bs) rows)) =
              ((fun j => ((id + j) * bs, min ((id + j + 1) * bs) rows)) ∘ Nat.succ) := by
            funext j
            simp only [Function.comp_apply, Nat.succ_eq_add_one]
            rw [show id + (j + 1) = id + 1 + j from by omega]
          rw [hfun]
      · have he3 : e = rows := by omega
        have hid : ¬ id * bs < rows := by omega
        have hK : numBlocks rows bs - id = 0 := by
          have := (lt_numBlocks_iff rows bs hbs id).mp
          omega
        rw [schedLoop, if_neg hlt, hK, List.range_zero, List.map_nil]

lemma rowBlocks_closed (rows P : ℕ) (hp : 1 ≤ P) (hr : P ≤ rows) :
    rowBlocks rows P =
      (List.range (numBlocks rows (rows / P))).map
        (fun j => (j * (rows / P), min ((j + 1) * (rows / P)) rows)) := by
  have hbs : 1 ≤ rows / P := (Nat.one_le_div_iff (by omega)).mpr hr
  unfold rowBlocks
  rw [schedLoop_eq rows (rows / P) hbs (rows + 1) 0 0 (by simp) (by omega)]
  simp only [Nat.zero_add, Nat.sub_zero]

lemma flatten_prefix (rows bs : ℕ) (hbs : 1 ≤ bs) :
    ∀ t, t ≤ numBlocks rows bs →
      flattenBlocks ((List.range t).map
          (fun j => (j * bs, min ((j + 1) * bs) rows))) =
        List.range' 0 (min (t * bs) rows) := by
  intro t
  induction t with
  | zero => intro ht; simp [flattenBlocks]
  | succ t ih =>
      intro ht
      have htK : t < numBlocks rows bs := by omega
      have hlt : t * bs < rows := (lt_numBlocks_iff rows bs hbs t).mp htK
      have hmono : t * bs ≤ (t + 1) * bs := by
        rw [Nat.succ_mul]; omega
      rw [List.range_succ, List.map_append, List.map_cons, List.map_nil,
        flattenBlocks, List.flatMap_append, ← flattenBlocks, ih (by omega)]
      simp only [flattenBlocks, List.flatMap_cons, List.flatMap_nil, List.append_nil]
      rw [Nat.min_eq_left hlt.le]
      have happ : List.range' 0 (t * bs) ++ List.range' (t * bs) (min ((t + 1) * bs) rows - t * bs) =
          List.range' 0 (t * bs + (min ((t + 1) * bs) rows - t * bs)) := by
        have := List.range'_append 0 (t * bs) (min ((t + 1) * bs) rows - t * bs) 1
        simpa [Nat.add_comm] using this
      rw [happ]
      congr 1
      omega

lemma flattenBlocks_rowBlocks (rows P : ℕ) (hp : 1 ≤ P) (hr : P ≤ rows) :
    flattenBlocks (rowBlocks rows P) = List.range rows := by
  have hbs : 1 ≤ rows / P := (Nat.one_le_div_iff (by omega)).mpr hr
  rw [rowBlocks_closed rows P hp hr,
    flatten_prefix rows (rows / P) hbs (numBlocks rows (rows / P)) le_rfl]
  have hge : ¬ numBlocks rows (rows / P) * (rows / P) < rows := by
    have := (lt_numBlocks_iff rows (rows / P) hbs (numBlocks rows (rows / P))).mpr
    omega
  rw [Nat.min_eq_right (by omega), List.range_eq_range']

/-! ### Concrete grids used by the witnesses -/

/-- A 3 × 3 grid holding the values 1..9 row-major, sentinel -999. -/
def gridA : Grid := ⟨3, 3, -999, fun r c => (3 * r + c + 1 : ℚ)⟩

/-- A 3 × 3 grid whose only valid sample is the center value 5. -/
def gridB : Grid := ⟨3, 3, -999, fun r c => if r = 1 ∧ c = 1 then 5 else -999⟩

lemma gridA_center : gridA.get 1 ((1 : ℕ) : ℤ) ≠ gridA.nodata := by
  norm_num [Grid.get, gridA]

lemma gridB_center : gridB.get 1 ((1 : ℕ) : ℤ) ≠ gridB.nodata := by decide

lemma gridB_corner : gridB.get 0 ((0 : ℕ) : ℤ) = gridB.nodata := by decide

lemma gridA_valid_eval :
    validSamples gridA 1 1 1 ((1 : ℕ) : ℤ) = [1, 4, 7, 2, 5, 8, 3, 6, 9] := by
  simp [validSamples, windowSamples, windowCols, stripRows, List.range_succ,
    Grid.get, gridA]
  norm_num [List.filter_cons]

lemma gridB_valid_eval : validSamples gridB 1 1 1 ((1 : ℕ) : ℤ) = [5] := by decide

lemma gridA_combine_eval :
    combine (dequeAt gridA 1 1 1 1) =
      ⟨((1 : ℚ) : WithTop ℚ), ((9 : ℚ) : WithBot ℚ), 45, 9⟩ := by
  rw [combine_dequeAt_spec, gridA_valid_eval]
  refine Agg.ext ?_ ?_ ?_ ?_
  · decide
  · decide
  · norm_num
  · rfl

lemma gridB_combine_eval :
    combine (dequeAt gridB 1 1 1 1) =
      ⟨((5 : ℚ) : WithTop ℚ), ((5 : ℚ) : WithBot ℚ), 5, 1⟩ := by
  rw [combine_dequeAt_spec, gridB_valid_eval]
  refine Agg.ext ?_ ?_ ?_ ?_
  · decide
  · decide
  · norm_num
  · rfl

lemma gridA_out_eval : outputCell gridA 1 1 1 1 = 5 := by
  unfold outputCell
  rw [if_pos gridA_center]
  simp only [gridA_combine_eval, WithTop.untop'_coe, WithBot.unbot'_coe]
  norm_num

lemma gridB_out_eval : outputCell gridB 1 1 1 1 = 5 := by
  unfold outputCell
  rw [if_pos gridB_center]
  simp only [gridB_combine_eval]
  norm_num

/-! ### Claim theorems -/

/-- C1: for every output cell whose center sample is valid and whose
neighborhood holds `count > 2` valid samples, the output equals
`(sum - max - min) / (count - 2)` where sum, max, min and count are taken
over exactly the valid samples of the `width_x × width_y` neighborhood. -/
theorem trimmed_mean_formula (g : Grid) (row : ℤ) (mx my : ℕ) (col : ℕ)
    (hz : g.get row col ≠ g.nodata)
    (hn : 2 < (validSamples g row mx my col).length) :
    ∃ mn mxv : ℚ,
      specMin (validSamples g row mx my col) = (mn : WithTop ℚ) ∧
      specMax (validSamples g row mx my col) = (mxv : WithBot ℚ) ∧
      outputCell g mx my row col =
        ((validSamples g row mx my col).sum - mxv - mn) /
          (((validSamples g row mx my col).length - 2 : ℕ) : ℚ) := by
  have hns : validSamples g row mx my col ≠ [] := by
    intro h
    rw [h] at hn
    simp at hn
  obtain ⟨mn, hmn⟩ := WithTop.ne_top_iff_exists.mp (specMin_ne_top _ hns)
  obtain ⟨mxv, hmx⟩ := WithBot.ne_bot_iff_exists.mp (specMax_ne_bot _ hns)
  refine ⟨mn, mxv, hmn.symm, hmx.symm, ?_⟩
  unfold outputCell
  rw [if_pos hz]
  simp only [combine_dequeAt_spec]
  rw [if_pos hn, ← hmn, ← hmx, WithTop.untop'_coe, WithBot.unbot'_coe]

/-- Witness for C1 on the 3 × 3 grid of values 1..9: the center output is
the 9-sample trimmed mean (45 - 9 - 1) / 7 = 5. -/
theorem trimmed_mean_formula_witness :
    gridA.get 1 ((1 : ℕ) : ℤ) ≠ gridA.nodata ∧
    2 < (validSamples gridA 1 1 1 ((1 : ℕ) : ℤ)).length ∧
    ∃ mn mxv : ℚ,
      specMin (validSamples gridA 1 1 1 ((1 : ℕ) : ℤ)) = (mn : WithTop ℚ) ∧
      specMax (validSamples gridA 1 1 1 ((1 : ℕ) : ℤ)) = (mxv : WithBot ℚ) ∧
      outputCell gridA 1 1 1 1 =
        ((validSamples gridA 1 1 1 ((1 : ℕ) : ℤ)).sum - mxv - mn) /
          (((validSamples gridA 1 1 1 ((1 : ℕ) : ℤ)).length - 2 : ℕ) : ℚ) :=
  ⟨gridA_center, by rw [gridA_valid_eval]; decide,
    trimmed_mean_formula gridA 1 1 1 1 gridA_center (by rw [gridA_valid_eval]; decide)⟩

/-- C2: the combined aggregate of the incremental sliding-window deque
(initial full fill at column 0, then pop-front plus one new strip per
column, reduced over the strips) equals the brute-force single-pass
aggregate over the exact `width_x × width_y` window at every column. -/
theorem sliding_window_refines_brute_force (g : Grid) (row : ℤ) (mx my : ℕ)
    (col : ℕ) :
    combine (dequeAt g row mx my col) = bruteForceAggregate g row mx my col :=
  combine_dequeAt g row mx my col

/-- C3 (stated contrapositively, since its antecedent never occurs): for a
cell with a valid center whose output is not `no_data`, the combined count
is nonzero. Equivalently: every output cell with a valid center and a
zero-count aggregate has output `no_data` — vacuously, because a valid
center always contributes to its own window, making the count positive. -/
theorem zero_count_center_gating (g : Grid) (row : ℤ) (mx my : ℕ) (col : ℕ)
    (hz : g.get row col ≠ g.nodata)
    (_hout : outputCell g mx my row col ≠ g.nodata) :
    (combine (dequeAt g row mx my col)).n ≠ 0 := by
  have h1 := center_count_pos g row mx my col hz
  omega

/-- Witness for C3 at the center of the 1..9 grid. -/
theorem zero_count_center_gating_witness :
    gridA.get 1 ((1 : ℕ) : ℤ) ≠ gridA.nodata ∧
    outputCell gridA 1 1 1 1 ≠ gridA.nodata ∧
    (combine (dequeAt gridA 1 1 1 1)).n ≠ 0 :=
  ⟨gridA_center, by rw [gridA_out_eval]; decide,
    zero_count_center_gating gridA 1 1 1 1 gridA_center (by rw [gridA_out_eval]; decide)⟩

/-- C4 counterexample: with 10 rows and parallelism 3 the scheduler
creates 4 blocks — more than P = 3 — and the final block (9, 10) has size
1, smaller than the other blocks (size 3), not larger. -/
theorem scheduler_block_claim_false :
    (rowBlocks 10 3).length = 4 ∧ ¬ (rowBlocks 10 3).length ≤ 3 ∧
    (rowBlocks 10 3).getLast? = some (9, 10) := by decide

/-- C4 (amended): for `1 ≤ P ≤ rows` and `bs = rows / P`, the scheduler
creates `⌈rows / bs⌉` consecutive blocks `[id·bs, min((id+1)·bs, rows))`;
every block has size between 1 and `bs`, and the final block
`[(K-1)·bs, rows)` absorbs the remainder, so it is the smallest block
(strictly smaller when `bs` does not divide `rows`); the number of blocks
can exceed `P`. -/
theorem scheduler_blocks_characterization (rows P : ℕ) (hp : 1 ≤ P)
    (hr : P ≤ rows) :
    rowBlocks rows P =
      (List.range (numBlocks rows (rows / P))).map
        (fun j => (j * (rows / P), min ((j + 1) * (rows / P)) rows)) ∧
    (∀ blk ∈ rowBlocks rows P,
      1 ≤ blk.2 - blk.1 ∧ blk.2 - blk.1 ≤ rows / P) ∧
    (rowBlocks rows P).getLast? =
      some ((numBlocks rows (rows / P) - 1) * (rows / P), rows) := by
  have hbs : 1 ≤ rows / P := (Nat.one_le_div_iff (by omega)).mpr hr
  have hclosed := rowBlocks_closed rows P hp hr
  refine ⟨hclosed, ?_, ?_⟩
  · intro blk hblk
    rw [hclosed, List.mem_map] at hblk
    obtain ⟨j, hj, rfl⟩ := hblk
    rw [List.mem_range] at hj
    have hlt : j * (rows / P) < rows := (lt_numBlocks_iff rows (rows / P) hbs j).mp hj
    have hmul : (j + 1) * (rows / P) = j * (rows / P) + rows / P := Nat.succ_mul j _
    simp only
    omega
  · have hK : 1 ≤ numBlocks rows (rows / P) := by
      have := (lt_numBlocks_iff rows (rows / P) hbs 0).mpr (by omega)
      omega
    obtain ⟨k, hk⟩ : ∃ k, numBlocks rows (rows / P) = k + 1 := ⟨_, (Nat.succ_pred_eq_of_pos (by omega)).symm⟩
    rw [hclosed, hk, List.range_succ, List.map_append, List.map_cons, List.map_nil,
      List.getLast?_concat]
    have hge : ¬ (k + 1) * (rows / P) < rows := by
      have := (lt_numBlocks_iff rows (rows / P) hbs (k + 1)).mpr
      omega
    rw [Nat.min_eq_right (by omega), Nat.add_sub_cancel]

/-- Witness for the amended C4 at rows = 5, P = 2. -/
theorem scheduler_blocks_characterization_witness :
    1 ≤ 2 ∧ 2 ≤ 5 ∧
    (rowBlocks 5 2 =
      (List.range (numBlocks 5 (5 / 2))).map
        (fun j => (j * (5 / 2), min ((j + 1) * (5 / 2)) 5)) ∧
    (∀ blk ∈ rowBlocks 5 2, 1 ≤ blk.2 - blk.1 ∧ blk.2 - blk.1 ≤ 5 / 2) ∧
    (rowBlocks 5 2).getLast? = some ((numBlocks 5 (5 / 2) - 1) * (5 / 2), 5)) :=
  ⟨by decide, by decide, scheduler_blocks_characterization 5 2 (by decide) (by decide)⟩

/-- C5: a `no_data` center always produces a `no_data` output, for every
filter size and regardless of the neighbors. -/
theorem nodata_center_gating (g : Grid) (mx my : ℕ) (row : ℤ) (col : ℕ)
    (hz : g.get row col = g.nodata) :
    outputCell g mx my row col = g.nodata := by
  unfold outputCell
  rw [if_neg (fun h => h hz)]

/-- Witness for C5 at the corner (0,0) of the grid with a -999 hole. -/
theorem nodata_center_gating_witness :
    gridB.get 0 ((0 : ℕ) : ℤ) = gridB.nodata ∧
    outputCell gridB 1 1 0 0 = gridB.nodata :=
  ⟨gridB_corner, nodata_center_gating gridB 1 1 0 0 gridB_corner⟩

/-- C6 counterexample: with R = 1 row and P = 2 workers the block size is
`floor(1/2) = 0`; every block the scheduler ever creates is the empty
block (0, 0) (the source loop in fact never terminates), so row 0 is
assigned to no worker's block. -/
theorem partition_claim_false :
    ¬ (0 ∈ flattenBlocks (rowBlocks 1 2)) ∧
    flattenBlocks (rowBlocks 1 2) = [] ∧
    ∀ blk ∈ rowBlocks 1 2, blk = (0, 0) := by decide

/-- C6 (amended): provided `1 ≤ P ≤ rows`, the scheduler's blocks cover
`[0, rows)` in order with no gaps and no overlaps: their concatenation is
exactly `[0, 1, ..., rows - 1]`, and every row index below `rows` occurs in
exactly one block (hence exactly one `(row, data)` message per row). -/
theorem partition_covers_rows (rows P : ℕ) (hp : 1 ≤ P) (hr : P ≤ rows) :
    flattenBlocks (rowBlocks rows P) = List.range rows ∧
    ∀ r : ℕ, (flattenBlocks (rowBlocks rows P)).count r =
      if r < rows then 1 else 0 := by
  refine ⟨flattenBlocks_rowBlocks rows P hp hr, ?_⟩
  intro r
  rw [flattenBlocks_rowBlocks rows P hp hr]
  by_cases h : r < rows
  · rw [if_pos h]
    exact List.count_eq_one_of_mem (List.nodup_range rows) (List.mem_range.mpr h)
  · rw [if_neg h]
    exact List.count_eq_zero_of_not_mem (fun hm => h (List.mem_range.mp hm))

/-- Witness for the amended C6 at rows = 5, P = 2. -/
theorem partition_covers_rows_witness :
    1 ≤ 2 ∧ 2 ≤ 5 ∧
    (flattenBlocks (rowBlocks 5 2) = List.range 5 ∧
    ∀ r : ℕ, (flattenBlocks (rowBlocks 5 2)).count r = if r < 5 then 1 else 0) :=
  ⟨by decide, by decide, partition_covers_rows 5 2 (by decide) (by decide)⟩

/-- C7: the normalized filter width is 3 for inputs below 3, `w + 1` for
even `w ≥ 3`, and `w` otherwise — always an odd integer at least 3. -/
theorem filter_width_normalization (w : ℕ) :
    normalizeWidth w = (if w < 3 then 3 else if w % 2 = 0 then w + 1 else w) ∧
    3 ≤ normalizeWidth w ∧ normalizeWidth w % 2 = 1 := by
  have h : normalizeWidth w =
      if (if w < 3 then 3 else w) % 2 = 0 then (if w < 3 then 3 else w) + 1
      else (if w < 3 then 3 else w) := rfl
  rw [h]
  by_cases h3 : w < 3
  · simp only [if_pos h3]
    decide
  · simp only [if_neg h3]
    by_cases he : w % 2 = 0
    · simp only [if_pos he]
      exact ⟨by simp, by omega, by omega⟩
    · simp only [if_neg he]
      exact ⟨by simp, by omega, by omega⟩

/-- C8: for a valid center whose neighborhood holds 1 or 2 valid samples,
the output is the plain untrimmed mean `sum / count`. -/
theorem small_count_plain_mean (g : Grid) (row : ℤ) (mx my : ℕ) (col : ℕ)
    (hz : g.get row col ≠ g.nodata)
    (hn : (validSamples g row mx my col).length = 1 ∨
      (validSamples g row mx my col).length = 2) :
    outputCell g mx my row col =
      (validSamples g row mx my col).sum /
        ((validSamples g row mx my col).length : ℚ) := by
  unfold outputCell
  rw [if_pos hz]
  simp only [combine_dequeAt_spec]
  rw [if_neg (by omega)]

/-- Witness for C8 on the grid whose only valid sample is its center 5:
one valid sample, output 5 / 1 = 5. -/
theorem small_count_plain_mean_witness :
    gridB.get 1 ((1 : ℕ) : ℤ) ≠ gridB.nodata ∧
    ((validSamples gridB 1 1 1 ((1 : ℕ) : ℤ)).length = 1 ∨
      (validSamples gridB 1 1 1 ((1 : ℕ) : ℤ)).length = 2) ∧
    outputCell gridB 1 1 1 1 =
      (validSamples gridB 1 1 1 ((1 : ℕ) : ℤ)).sum /
        ((validSamples gridB 1 1 1 ((1 : ℕ) : ℤ)).length : ℚ) :=
  ⟨gridB_center, by rw [gridB_valid_eval]; decide,
    small_count_plain_mean gridB 1 1 1 1 gridB_center (by rw [gridB_valid_eval]; decide)⟩

/-- C9: at every column — including columns within `half_x` of the grid
boundary — the window consists of exactly `width_x = 2·half_x + 1` strips;
out-of-range coordinates read as `no_data`, a `no_data` sample leaves the
accumulator unchanged, and a strip with no valid samples is exactly
`(min, max, sum, n) = (+∞, -∞, 0, 0)`. -/
theorem window_shape_and_empty_strips (g : Grid) (row : ℤ) (mx my : ℕ)
    (col : ℕ) :
    (dequeAt g row mx my col).length = 2 * mx + 1 ∧
    (∀ r c : ℤ,
      ¬ (0 ≤ r ∧ r < (g.rows : ℤ) ∧ 0 ≤ c ∧ c < (g.columns : ℤ)) →
      g.get r c = g.nodata) ∧
    (∀ a : Agg, aggUpdate g.nodata a g.nodata = a) ∧
    (∀ colX : ℤ, (∀ r2 ∈ stripRows row my, g.get r2 colX = g.nodata) →
      computeStrip g row my colX = ⟨⊤, ⊥, 0, 0⟩) := by
  refine ⟨?_, ?_, ?_, ?_⟩
  · rw [dequeAt_eq]
    simp [windowCols]
  · intro r c h
    unfold Grid.get
    rw [if_neg h]
  · intro a
    simp [aggUpdate]
  · intro colX hall
    unfold computeStrip
    generalize stripRows row my = L at hall
    induction L with
    | nil => rfl
    | cons r L ih =>
        rw [List.foldl_cons,
          show aggUpdate g.nodata aggInit (g.get r colX) = aggInit from by
            rw [hall r (List.mem_cons_self r L)]; simp [aggUpdate]]
        exact ih (fun r2 h2 => hall r2 (List.mem_cons_of_mem r h2))

/-- Witness for C9 at the left boundary column 0 of the 1..9 grid. -/
theorem window_shape_and_empty_strips_witness :
    (dequeAt gridA 0 1 1 0).length = 2 * 1 + 1 ∧
    (∀ r c : ℤ,
      ¬ (0 ≤ r ∧ r < (gridA.rows : ℤ) ∧ 0 ≤ c ∧ c < (gridA.columns : ℤ)) →
      gridA.get r c = gridA.nodata) ∧
    (∀ a : Agg, aggUpdate gridA.nodata a gridA.nodata = a) ∧
    (∀ colX : ℤ, (∀ r2 ∈ stripRows 0 1, gridA.get r2 colX = gridA.nodata) →
      computeStrip gridA 0 1 colX = ⟨⊤, ⊥, 0, 0⟩) :=
  window_shape_and_empty_strips gridA 0 1 1 0

/-- C10: a valid center lies inside the middle vertical strip of its own
window, so the combined count is at least 1 and the `sum / n` fallback of
the `count ≤ 2` branch never divides by zero. -/
theorem valid_center_count_positive (g : Grid) (row : ℤ) (mx my : ℕ)
    (col : ℕ) (hz : g.get row col ≠ g.nodata) :
    1 ≤ (combine (dequeAt g row mx my col)).n ∧
    ((combine (dequeAt g row mx my col)).n : ℚ) ≠ 0 := by
  have h1 := center_count_pos g row mx my col hz
  exact ⟨h1, Nat.cast_ne_zero.mpr (by omega)⟩

/-- Witness for C10 at the center of the 1..9 grid. -/
theorem valid_center_count_positive_witness :
    gridA.get 1 ((1 : ℕ) : ℤ) ≠ gridA.nodata ∧
    (1 ≤ (combine (dequeAt gridA 1 1 1 1)).n ∧
      ((combine (dequeAt gridA 1 1 1 1)).n : ℚ) ≠ 0) :=
  ⟨gridA_center, valid_center_count_positive gridA 1 1 1 1 gridA_center⟩

end OlympicFilter
